import Mathlib

/-!
Shallow embedding of the knowledge Store and Context Assembler of `rag_store.py`,
and the token normalizer of `candidate_extractor.py`, together with theorems settling
the frozen claims about them.

Modelling conventions:
* A Python `dict` is an insertion-ordered association list with unique keys.
  Assignment `d[k] = v` updates the first entry with key `k` in place (keeping its
  position) and otherwise appends at the end, which is exactly CPython semantics on
  the unique-key lists every reachable store state consists of.
* A JSON value parsed by `json.loads` is the inductive `Json`.
* Exceptions are modelled by `Option`: `none` is a raised exception.
* File-system state is the explicit `DiskState` value passed to `load`; the
  `RAGPaths` plumbing only routes to these files and is not modelled separately.
-/

set_option autoImplicit false

universe u

/-- JSON value, the result of `json.loads`. -/
inductive Json where
  | null
  | jbool (b : Bool)
  | num (n : Int)
  | str (s : String)
  | arr (elems : List Json)
  | obj (fields : List (String × Json))

/-- Lookup in a Python dict modelled as an association list: value of the first
entry with the given key (`d[k]` / `d.get(k)`). -/
def dictGet {α : Type u} : List (String × α) → String → Option α
  | [], _ => none
  | p :: rest, k => if p.1 = k then some p.2 else dictGet rest k

/-- Assignment `d[k] = v` in a Python dict: update the first entry with key `k`
in place, else append `(k, v)` at the end. -/
def dictInsert {α : Type u} : List (String × α) → String → α → List (String × α)
  | [], k, v => [(k, v)]
  | p :: rest, k, v => if p.1 = k then (k, v) :: rest else p :: dictInsert rest k v

/-- Python `d.setdefault(k, []).append(n)`: append `n` to the list stored under
`k`, creating the entry with `[n]` when the key is absent. -/
def multiAppend : List (String × List String) → String → String → List (String × List String)
  | [], k, n => [(k, [n])]
  | p :: rest, k, n =>
    if p.1 = k then (p.1, p.2 ++ [n]) :: rest else p :: multiAppend rest k n

/-- Lookup in a multimap, defaulting to the empty list. -/
def multiGet (d : List (String × List String)) (k : String) : List String :=
  (dictGet d k).getD []

/-- Field Card: one line of `field_cards.jsonl`, with the attributes the code
reads via `card.get(...)` resolved (the `.get` defaults are the field defaults).
`canonical_name` is `none` when the attribute is missing or null. -/
structure FieldCard where
  canonical_name : Option String
  type : Json := Json.null
  synonyms : List String := []
  cuewords : List String := []
  patterns : List String := []
  normalization : Json := Json.obj []
  ranges : Json := Json.obj []

/-- Lexicon entry: `{canonical, variants}` as read by `slice_lexicon` and
`to_prompt_chunks` (`e.get("canonical")`, `e.get("variants", [])`). -/
structure LexEntry where
  canonical : Option String
  variants : List String := []

/-- Lexicon Card: a parsed file of the lexicon directory, with the attributes
`slice_lexicon` reads resolved (`card.get("card_id")`, `card.get("entries", [])`). -/
structure LexCard where
  card_id : Option String
  entries : List LexEntry := []

/-- In-memory indices of `RAGStore` (the `paths` attribute is replaced by the
explicit `DiskState` argument of `load`). -/
structure RAGStore where
  fields_by_name : List (String × FieldCard) := []
  fields_by_synonym : List (String × List String) := []
  policy : List (String × Json) := []
  abbr : List (String × Json) := []
  ranges : List (String × Json) := []
  lexicons : List (String × LexCard) := []

/-- The store as constructed, before any `load`: every index empty. -/
def emptyRAGStore : RAGStore := {}

/-- One file of a card directory: the stem of its name, and `none` when
`json.loads(p.read_text())` or the subsequent attribute access raises (the
`try`/`except` skips it), else the record's `card_id` attribute (when it is a
string) and its parsed value. -/
def DirFile (α : Type u) : Type u := String × Option (Option String × α)

/-- Disk contents seen by `load`: the field-card file (`none` when absent, else
its lines, each `none` when blank or failing `json.loads`), and the four card
directories (`none` when the directory does not exist). -/
structure DiskState where
  field_cards_file : Option (List (Option FieldCard)) := none
  policy_files : Option (List (DirFile Json)) := none
  abbr_files : Option (List (DirFile Json)) := none
  range_files : Option (List (DirFile Json)) := none
  lexicon_files : Option (List (DirFile LexCard)) := none

/-- Whitespace recognized by Python `strip()` and the regex class `\s` (ASCII
range): space, tab, newline, carriage return, vertical tab, form feed. -/
def pyIsSpace (c : Char) : Bool :=
  c = ' ' || c = '\t' || c = '\n' || c = '\r' || c = '\x0b' || c = '\x0c'

/-- Python `s.lower()`, modelled character by character (`Char.toLower` agrees
with `str.lower` on ASCII text). -/
def strLower (s : String) : String := String.mk (s.data.map Char.toLower)

/-- Python `s.strip()`: drop whitespace from both ends. -/
def strTrim (s : String) : String :=
  String.mk (((s.data.dropWhile pyIsSpace).reverse.dropWhile pyIsSpace).reverse)

/-- Python `str(syn).strip().lower()` applied to a synonym in `_load_field_cards`. -/
def normSynStr (s : String) : String := strLower (strTrim s)

/-- Appending one synonym of the card named `name` to the synonym index:
`s = str(syn).strip().lower(); if not s: continue;
self.fields_by_synonym.setdefault(s, []).append(name)`. -/
def synStep (name : String) (bs : List (String × List String)) (syn : String) :
    List (String × List String) :=
  let s := normSynStr syn
  if s = "" then bs else multiAppend bs s name

/-- Processing of one line of the field-card file by `_load_field_cards`:
skip unparsed lines and cards without a truthy `canonical_name`; otherwise
assign the card in the name index and append the name under every normalized
non-empty synonym in the synonym index. -/
def lineStep (acc : List (String × FieldCard) × List (String × List String))
    (line : Option FieldCard) :
    List (String × FieldCard) × List (String × List String) :=
  match line with
  | none => acc
  | some card =>
    match card.canonical_name with
    | none => acc
    | some name =>
      if name = "" then acc
      else (dictInsert acc.1 name card, card.synonyms.foldl (synStep name) acc.2)

/-- Body of `_load_field_cards` after the existence check: clear both indices
(start from `([], [])`) and fold the lines. -/
def loadFieldCards (lines : List (Option FieldCard)) :
    List (String × FieldCard) × List (String × List String) :=
  lines.foldl lineStep ([], [])

/-- One directory file processed by `_load_dir`: skipped on parse failure, else
`into[obj.get("card_id", p.stem)] = obj`. -/
def dirStep {α : Type u} (acc : List (String × α)) (f : DirFile α) : List (String × α) :=
  match f.2 with
  | none => acc
  | some (cid, obj) => dictInsert acc (cid.getD f.1) obj

/-- `_load_dir(d, into)`: a missing directory contributes nothing; otherwise each
parsed file is assigned into the existing mapping, which is not cleared first. -/
def loadDir {α : Type u} (dirFiles : Option (List (DirFile α))) (into : List (String × α)) :
    List (String × α) :=
  match dirFiles with
  | none => into
  | some fs => fs.foldl dirStep into

/-- Method `RAGStore.load` on disk state `disk`; `none` models the
`FileNotFoundError` raised by `_load_field_cards` when the field-card file is
absent (raised before any index is touched). -/
def RAGStore.load (st : RAGStore) (disk : DiskState) : Option RAGStore :=
  match disk.field_cards_file with
  | none => none
  | some lines =>
    let fc := loadFieldCards lines
    some { st with
      fields_by_name := fc.1
      fields_by_synonym := fc.2
      policy := loadDir disk.policy_files st.policy
      abbr := loadDir disk.abbr_files st.abbr
      ranges := loadDir disk.range_files st.ranges
      lexicons := loadDir disk.lexicon_files st.lexicons }

/-- State of the store object after a call to `load`: the rebuilt store on
success; when `load` raises, the exception propagates from the existence check
at the top of `_load_field_cards`, before any index is mutated, so the object
keeps its pre-call state. -/
def RAGStore.loadState (st : RAGStore) (disk : DiskState) : RAGStore :=
  (st.load disk).getD st

/-- Method `get_field_cards`: the comprehension
`[self.fields_by_name[n] for n in names if n in self.fields_by_name]`. -/
def RAGStore.get_field_cards (st : RAGStore) (names : List String) : List FieldCard :=
  (names.filter (fun n => (dictGet st.fields_by_name n).isSome)).filterMap
    (fun n => dictGet st.fields_by_name n)

/-- Python `str(c).lower().strip()` applied to a cue in `search_fields_by_synonyms`. -/
def normCueStr (c : String) : String := strTrim (strLower c)

/-- Adding one canonical name to the accumulated hits. The source accumulates in
a Python `set` and returns `list(hits)`; set iteration order is unspecified, so
we fix first-insertion order and prove only order-independent properties. -/
def insertHit (acc : List String) (n : String) : List String :=
  if n ∈ acc then acc else acc ++ [n]

/-- Processing of one cue by `search_fields_by_synonyms`: look up the normalized
cue in the synonym index and add every canonical name of its bucket. -/
def searchStep (st : RAGStore) (hits : List String) (c : String) : List String :=
  match dictGet st.fields_by_synonym (normCueStr c) with
  | none => hits
  | some ns => ns.foldl insertHit hits

/-- Method `search_fields_by_synonyms`: union of the synonym-index buckets of
the normalized cues. -/
def RAGStore.search_fields_by_synonyms (st : RAGStore) (cues : List String) : List String :=
  cues.foldl (searchStep st) []

/-- Python list slicing `xs[:k]` for an `int` bound `k`: the first `k` elements
when `k` is non-negative, all but the last `-k` elements otherwise. -/
def pyTake {α : Type u} (k : Int) (xs : List α) : List α :=
  if 0 ≤ k then xs.take k.toNat else xs.take (xs.length - (-k).toNat)

/-- Result of `slice_lexicon`: either the empty dict `{}` (key absent) or the
dict `{"card_id": ..., "entries": ...}`. -/
inductive LexSlice where
  | emptyDict
  | mkSlice (card_id : Option String) (entries : List LexEntry)

/-- Reading `v.get("entries", [])` from a `slice_lexicon` result. -/
def LexSlice.entries : LexSlice → List LexEntry
  | LexSlice.emptyDict => []
  | LexSlice.mkSlice _ es => es

/-- Entries of a lexicon card whose lowercased variant list intersects the
lowercased token set — the filter loop inside `slice_lexicon`. -/
def matchingEntries (card : LexCard) (toks : List String) : List LexEntry :=
  card.entries.filter
    (fun e => e.variants.any (fun v => (toks.map strLower).contains (strLower v)))

/-- Method `slice_lexicon`. A present card is treated as truthy under
`if not card:`; the only falsy parsed record, the attribute-less object `{}`,
is not distinguished by `LexCard` (records with at least one attribute are
truthy in Python, including `{"card_id": null}`). An empty or absent
`include_tokens` (both falsy) selects the unfiltered prefix; a token filter
matching nothing falls back to that same prefix. -/
def RAGStore.slice_lexicon (st : RAGStore) (lexicon_key : String)
    (include_tokens : Option (List String)) (top_k : Int) : LexSlice :=
  match dictGet st.lexicons lexicon_key with
  | none => LexSlice.emptyDict
  | some card =>
    match include_tokens with
    | none => LexSlice.mkSlice card.card_id (pyTake top_k card.entries)
    | some toks =>
      if toks.isEmpty then LexSlice.mkSlice card.card_id (pyTake top_k card.entries)
      else
        let es := matchingEntries card toks
        if es.isEmpty then LexSlice.mkSlice card.card_id (pyTake top_k card.entries)
        else LexSlice.mkSlice card.card_id es

/-- Context Payload built by `build_context`. -/
structure Payload where
  field_cards : List FieldCard := []
  policies : List (String × Json) := []
  abbr : List (String × Json) := []
  ranges : List (String × Json) := []
  lexicon : List (String × LexSlice) := []

/-- Membership test
`f in {"treatment_history", "followup_visits", "treatment_followup_notes"}`. -/
def isTreatmentField (f : String) : Bool :=
  f = "treatment_history" || f = "followup_visits" || f = "treatment_followup_notes"

/-- Method `ContextAssembler.build_context`. The Python defaults are
`page_tokens=None`, the three include flags `True`,
`meds_lexicon_key="lexicon/meds_observed:v1"` and `meds_top_k=12`; callers here
pass every argument explicitly. -/
def ContextAssembler.build_context (store : RAGStore) (target_fields : List String)
    (page_tokens : Option (List String)) (include_abbr : Bool) (include_policies : Bool)
    (include_ranges : Bool) (meds_lexicon_key : String) (meds_top_k : Int) : Payload :=
  let payload : Payload := {}
  let payload := { payload with field_cards := store.get_field_cards target_fields }
  let payload :=
    if include_policies then
      { payload with
        policies := store.policy.foldl (fun d kv => dictInsert d kv.1 kv.2) payload.policies }
    else payload
  let payload :=
    if include_abbr then
      { payload with
        abbr := store.abbr.foldl (fun d kv => dictInsert d kv.1 kv.2) payload.abbr }
    else payload
  let payload :=
    if include_ranges then
      { payload with
        ranges := store.ranges.foldl (fun d kv => dictInsert d kv.1 kv.2) payload.ranges }
    else payload
  let payload :=
    if target_fields.any isTreatmentField then
      { payload with
        lexicon := dictInsert payload.lexicon meds_lexicon_key
          (store.slice_lexicon meds_lexicon_key page_tokens meds_top_k) }
    else payload
  payload

/-- Test whether `pat` is a leading piece of `s` (character lists). -/
def strStartsWith : List Char → List Char → Bool
  | _, [] => true
  | [], _ :: _ => false
  | c :: cs, p :: ps => c = p && strStartsWith cs ps

/-- Python substring test `pat in s` on character lists. -/
def hasSubstrL : List Char → List Char → Bool
  | [], pat => strStartsWith [] pat
  | c :: t, pat => strStartsWith (c :: t) pat || hasSubstrL t pat

/-- Python substring test `pat in s` on strings. -/
def hasSubstrS (s pat : String) : Bool := hasSubstrL s.data pat.data

/-- Reduction of a field card inside the first prompt chunk: canonical name,
type, first 8 synonyms, first 12 cue words, first 2 patterns, full
normalization and ranges descriptors. -/
structure SlimFieldCard where
  canonical_name : Option String
  type : Json
  synonyms : List String
  cuewords : List String
  patterns : List String
  normalization : Json
  ranges : Json

/-- The reduction applied to each selected card by `to_prompt_chunks`. -/
def slimCard (c : FieldCard) : SlimFieldCard :=
  { canonical_name := c.canonical_name
    type := c.type
    synonyms := c.synonyms.take 8
    cuewords := c.cuewords.take 12
    patterns := c.patterns.take 2
    normalization := c.normalization
    ranges := c.ranges }

/-- One serialized prompt chunk, identified by the structured value passed to
`json.dumps` (serialization of a structured value to its JSON text is
deterministic and injective, so chunks are modelled by their contents). -/
inductive Chunk where
  | fieldCardsChunk (cards : List SlimFieldCard)
  | policiesChunk (kvs : List (String × Json))
  | abbrChunk (card : Json)
  | rangesChunk (kvs : List (String × Json))
  | lexiconChunk (lexicon_key : String) (entries : List (Option String × List String))

/-- Method `ContextAssembler.to_prompt_chunks`, translated statement by
statement; each `if` mirrors a Python truthiness test on a list or dict. -/
def ContextAssembler.to_prompt_chunks (context_payload : Payload) : List Chunk :=
  let chunks : List Chunk := []
  let chunks :=
    if context_payload.field_cards.isEmpty then chunks
    else chunks ++ [Chunk.fieldCardsChunk (context_payload.field_cards.map slimCard)]
  let pol := context_payload.policies
  let small_pol := pol.filter (fun kv =>
    hasSubstrS kv.1 "notation" || hasSubstrS kv.1 "units" || hasSubstrS kv.1 "date")
  let chunks := if small_pol.isEmpty then chunks else chunks ++ [Chunk.policiesChunk small_pol]
  let ab := context_payload.abbr
  let chunks :=
    if ab.isEmpty then chunks
    else chunks ++
      (ab.filter (fun kv => hasSubstrS kv.1 "dermatology")).map (fun kv => Chunk.abbrChunk kv.2)
  let rng := context_payload.ranges
  let chunks :=
    if rng.isEmpty then chunks
    else
      let keep := rng.filter (fun kv =>
        (["labs", "scorad", "anthro"] : List String).any (fun tag => hasSubstrS kv.1 tag))
      if keep.isEmpty then chunks else chunks ++ [Chunk.rangesChunk keep]
  let lex := context_payload.lexicon
  let chunks :=
    if lex.isEmpty then chunks
    else chunks ++ lex.map (fun kv =>
      Chunk.lexiconChunk kv.1 (kv.2.entries.map (fun e => (e.canonical, e.variants))))
  chunks

/-- Separator characters of the split regex `[,;\n]+`. -/
def isSepChar (c : Char) : Bool := c = ',' || c = ';' || c = '\n'

/-- Splitting at every single separator character. The source regex `[,;\n]+`
splits at maximal separator runs; the two differ only by extra empty parts
between adjacent separators, and every empty part is discarded by the per-part
transform that follows. -/
def splitSep : List Char → List (List Char)
  | [] => [[]]
  | c :: rest =>
    if isSepChar c then [] :: splitSep rest
    else
      match splitSep rest with
      | [] => [[c]]
      | p :: ps => (c :: p) :: ps

/-- Python `p.strip()`: drop whitespace from both ends. -/
def stripWs (cs : List Char) : List Char :=
  ((cs.dropWhile pyIsSpace).reverse.dropWhile pyIsSpace).reverse

/-- Character set of the literal passed to `strip` in `normalize_tokens`. The
source file's bytes spell `-â€¢*`: a dash, the three-character mojibake of a
bullet point (U+00E2, U+20AC, U+00A2) and an asterisk; the genuine bullet
`•` (U+2022) is not in the set. -/
def isStripChar (c : Char) : Bool :=
  c = '-' || c = 'â' || c = '€' || c = '¢' || c = '*'

/-- Python `p.strip("-â€¢*")`: drop those characters from both ends. -/
def stripMarks (cs : List Char) : List Char :=
  ((cs.dropWhile isStripChar).reverse.dropWhile isStripChar).reverse

/-- Python `p.lower()`; `Char.toLower` agrees with `str.lower` on ASCII text. -/
def pyLower (cs : List Char) : List Char := cs.map Char.toLower

/-- Python `re.sub(r"\s+", " ", p)`: replace each maximal whitespace run by a
single space (the space is emitted at the last character of the run). -/
def collapseWs : List Char → List Char
  | [] => []
  | [c] => if pyIsSpace c then [' '] else [c]
  | c1 :: c2 :: rest =>
    if pyIsSpace c1 then
      if pyIsSpace c2 then collapseWs (c2 :: rest)
      else ' ' :: collapseWs (c2 :: rest)
    else c1 :: collapseWs (c2 :: rest)

/-- The per-part transform `p.strip().strip("-â€¢*").lower()`. -/
def partTransform (p : List Char) : List Char := pyLower (stripMarks (stripWs p))

/-- The pre-deduplication token list `toks` built by `normalize_tokens`:
transform each part, skip the empty ones, collapse whitespace runs. -/
def rawToks (raw : List Char) : List (List Char) :=
  (splitSep raw).filterMap (fun p =>
    let q := partTransform p
    if q.isEmpty then none else some (collapseWs q))

/-- Final deduplication loop of `normalize_tokens`; `seen` holds the already
emitted tokens (the Python `set` queried by `t not in seen`). -/
def dedupeAux (seen : List (List Char)) : List (List Char) → List (List Char)
  | [] => []
  | t :: ts => if t ∈ seen then dedupeAux seen ts else t :: dedupeAux (t :: seen) ts

/-- Function `normalize_tokens` of `candidate_extractor.py`. -/
def normalize_tokens (raw : String) : List String :=
  (dedupeAux [] (rawToks raw.data)).map (fun cs => String.mk cs)

/-- Modelled from the spec's words (keep the first occurrence of each duplicate
token, preserving first-seen order); compared with the source-side
deduplication loop in the theorems below. -/
def firstOccurrences (ts : List (List Char)) : List (List Char) :=
  ts.foldl (fun acc t => if t ∈ acc then acc else acc ++ [t]) []

/-- Value assigned to key `k` by a directory scan, the last assignment winning. -/
def assignedVal {α : Type u} : List (DirFile α) → String → Option α
  | [], _ => none
  | f :: rest, k =>
    match assignedVal rest k with
    | some v => some v
    | none =>
      match f.2 with
      | some (cid, obj) => if cid.getD f.1 = k then some obj else none
      | none => none

/-- Keys a directory scan appends at the end of a dict already holding keys `ks`,
in order of first assignment. -/
def newDirKeys {α : Type u} (ks : List String) : List (DirFile α) → List String
  | [] => []
  | f :: rest =>
    match f.2 with
    | none => newDirKeys ks rest
    | some (cid, _) =>
      let k := cid.getD f.1
      if k ∈ ks then newDirKeys ks rest else k :: newDirKeys (ks ++ [k]) rest

/-- The last parsed line of the field-card file whose `canonical_name` is `n`. -/
def lastCardNamed : List (Option FieldCard) → String → Option FieldCard
  | [], _ => none
  | l :: rest, n =>
    match lastCardNamed rest n with
    | some c => some c
    | none =>
      match l with
      | some card => if card.canonical_name = some n then some card else none
      | none => none

/-- A line of the field-card file contributes canonical name `n` under the
synonym key `s`. -/
def synContrib (lines : List (Option FieldCard)) (s n : String) : Prop :=
  ∃ card, some card ∈ lines ∧ card.canonical_name = some n ∧ n ≠ "" ∧ s ≠ "" ∧
    ∃ syn ∈ card.synonyms, normSynStr syn = s

/-- Predicate selecting policy keys for the policy chunk. -/
def polQual (k : String) : Bool :=
  hasSubstrS k "notation" || hasSubstrS k "units" || hasSubstrS k "date"

/-- Predicate selecting range keys for the ranges chunk. -/
def rngQual (k : String) : Bool :=
  (["labs", "scorad", "anthro"] : List String).any (fun tag => hasSubstrS k tag)

/-- The chunk emitted for one lexicon entry of the payload. -/
def lexChunkOf (kv : String × LexSlice) : Chunk :=
  Chunk.lexiconChunk kv.1 (kv.2.entries.map (fun e => (e.canonical, e.variants)))

/-- Keys of a dict in storage order. -/
def dictKeys {α : Type u} (d : List (String × α)) : List String := d.map Prod.fst

/-- Keys of the four directory indices are duplicate-free; true of every store
state the code can reach, since the indices are Python dicts. -/
def goodKeys (st : RAGStore) : Prop :=
  (dictKeys st.policy).Nodup ∧ (dictKeys st.abbr).Nodup ∧
  (dictKeys st.ranges).Nodup ∧ (dictKeys st.lexicons).Nodup

/-- Concrete field card used in witnesses: the `duration` field. -/
def durationCard : FieldCard :=
  { canonical_name := some "duration", synonyms := ["How long", "since when"] }

/-- Concrete loaded store used in witnesses. -/
def sampleStore : RAGStore :=
  { fields_by_name := [("duration", durationCard)]
    fields_by_synonym := [("how long", ["duration"]), ("since when", ["duration"])]
    policy := [("policy/date_notation:v1", Json.null)]
    abbr := [("abbr/dermatology:v1", Json.null)]
    ranges := [("range/labs:v1", Json.null)] }

/-- Concrete lexicon card used in witnesses. -/
def medsCard : LexCard :=
  { card_id := some "lexicon/meds_observed:v1"
    entries :=
      [{ canonical := some "tacrolimus ointment", variants := ["Tacroz", "Tacroz Forte"] },
       { canonical := some "levocetirizine", variants := ["Xyzal"] }] }

/-- Concrete store holding one lexicon card. -/
def lexStore : RAGStore := { lexicons := [("lexicon/meds_observed:v1", medsCard)] }

/-- Store state reached by loading `staleDisk1` into a fresh store: one policy
entry, every other index empty. -/
def stalePolicyStore : RAGStore := { policy := [("stale_policy", Json.null)] }

/-- Disk state with an empty field-card file and one parsed policy file. -/
def staleDisk1 : DiskState :=
  { field_cards_file := some []
    policy_files := some [("stale_policy", some (none, Json.null))] }

/-- Disk state with an empty field-card file and an existing, empty policy
directory. -/
def staleDisk2 : DiskState :=
  { field_cards_file := some [], policy_files := some [] }

/-- First of two field-card lines sharing the canonical name `a`; only this one
lists the synonym `s`. -/
def dupCardA : FieldCard := { canonical_name := some "a", synonyms := ["s"] }

/-- Second field-card line named `a`, listing no synonyms. -/
def dupCardB : FieldCard := { canonical_name := some "a" }

/-- Field-card file with duplicate canonical names. -/
def dupLines : List (Option FieldCard) := [some dupCardA, some dupCardB]

/-- Payload holding one field card and nothing else. -/
def singleCardPayload : Payload := { field_cards := [durationCard] }

theorem dictGet_dictInsert {α : Type u} (d : List (String × α)) (k k' : String) (v : α) :
    dictGet (dictInsert d k v) k' = if k = k' then some v else dictGet d k' := by
  induction d with
  | nil => by_cases h : k = k' <;> simp [dictInsert, dictGet, h]
  | cons p rest ih =>
    by_cases h1 : p.1 = k <;> by_cases h2 : k = k' <;> by_cases h3 : p.1 = k' <;>
      simp_all [dictInsert, dictGet]

theorem dictKeys_dictInsert {α : Type u} (d : List (String × α)) (k : String) (v : α) :
    dictKeys (dictInsert d k v) =
      if k ∈ dictKeys d then dictKeys d else dictKeys d ++ [k] := by
  induction d with
  | nil => simp [dictInsert, dictKeys]
  | cons p rest ih =>
    by_cases h1 : p.1 = k
    · simp [dictInsert, h1, dictKeys]
    · simp only [dictInsert, if_neg h1, dictKeys, List.map_cons] at ih ⊢
      rw [ih]
      by_cases h2 : k ∈ List.map Prod.fst rest <;>
        simp [h2, Ne.symm h1]

theorem dictGet_eq_none_of_not_mem {α : Type u} (d : List (String × α)) (k : String)
    (h : k ∉ dictKeys d) : dictGet d k = none := by
  induction d with
  | nil => rfl
  | cons p rest ih =>
    simp only [dictKeys, List.map_cons, List.mem_cons, not_or] at h
    have h1 : ¬ p.1 = k := fun hh => h.1 hh.symm
    simp [dictGet, h1, ih h.2]

theorem mem_dictKeys_of_dictGet {α : Type u} (d : List (String × α)) (k : String) (v : α)
    (h : dictGet d k = some v) : k ∈ dictKeys d := by
  by_contra hk
  rw [dictGet_eq_none_of_not_mem d k hk] at h
  exact Option.noConfusion h

theorem dict_ext {α : Type u} (d₁ d₂ : List (String × α))
    (hkeys : dictKeys d₁ = dictKeys d₂) (hnd : (dictKeys d₁).Nodup)
    (hget : ∀ k, dictGet d₁ k = dictGet d₂ k) : d₁ = d₂ := by
  induction d₁ generalizing d₂ with
  | nil => cases d₂ with
    | nil => rfl
    | cons q r => simp [dictKeys] at hkeys
  | cons p r₁ ih =>
    cases d₂ with
    | nil => simp [dictKeys] at hkeys
    | cons q r₂ =>
      simp only [dictKeys, List.map_cons, List.cons.injEq] at hkeys
      have hk : p.1 = q.1 := hkeys.1
      have hkeys2 : dictKeys r₁ = dictKeys r₂ := hkeys.2
      have hv : p.2 = q.2 := by
        have := hget p.1
        simp [dictGet, hk.symm] at this
        exact this
      have hnd' : (dictKeys r₁).Nodup := (List.nodup_cons.mp hnd).2
      have hp1 : p.1 ∉ dictKeys r₁ := (List.nodup_cons.mp hnd).1
      have hp2 : p.1 ∉ dictKeys r₂ := by
        rw [← hkeys2]; exact hp1
      have hr : r₁ = r₂ := by
        refine ih r₂ hkeys2 hnd' (fun k => ?_)
        by_cases hkk : k = p.1
        · subst hkk
          rw [dictGet_eq_none_of_not_mem r₁ p.1 hp1, dictGet_eq_none_of_not_mem r₂ p.1 hp2]
        · have hne : ¬ p.1 = k := fun hh => hkk hh.symm
          have hne' : ¬ q.1 = k := by rw [← hk]; exact hne
          have := hget k
          simp [dictGet, hne, hne'] at this
          exact this
      calc p :: r₁ = (p.1, p.2) :: r₁ := rfl
        _ = (q.1, q.2) :: r₂ := by rw [hk, hv, hr]
        _ = q :: r₂ := rfl

theorem multiGet_multiAppend (d : List (String × List String)) (k k' n : String) :
    multiGet (multiAppend d k n) k' =
      if k = k' then multiGet d k' ++ [n] else multiGet d k' := by
  induction d with
  | nil => by_cases h : k = k' <;> simp [multiAppend, multiGet, dictGet, h]
  | cons p rest ih =>
    by_cases h1 : p.1 = k <;> by_cases h2 : k = k' <;> by_cases h3 : p.1 = k' <;>
      simp_all [multiAppend, multiGet, dictGet]

theorem dictGet_foldl_dirStep {α : Type u} (fs : List (DirFile α)) (d : List (String × α))
    (k : String) :
    dictGet (fs.foldl dirStep d) k =
      match assignedVal fs k with
      | some v => some v
      | none => dictGet d k := by
  induction fs generalizing d with
  | nil => simp [assignedVal]
  | cons f rest ih =>
    simp only [List.foldl_cons, ih, assignedVal]
    cases ha : assignedVal rest k with
    | some v => rfl
    | none =>
      cases hf : f.2 with
      | none => simp [dirStep, hf]
      | some p =>
        obtain ⟨cid, obj⟩ := p
        simp only [dirStep, hf]
        rw [dictGet_dictInsert]
        by_cases hk : cid.getD f.1 = k <;> simp [hk]

theorem dictKeys_foldl_dirStep {α : Type u} (fs : List (DirFile α)) (d : List (String × α)) :
    dictKeys (fs.foldl dirStep d) = dictKeys d ++ newDirKeys (dictKeys d) fs := by
  induction fs generalizing d with
  | nil => simp [newDirKeys]
  | cons f rest ih =>
    cases hf : f.2 with
    | none =>
      simp only [List.foldl_cons, dirStep, hf, newDirKeys, ih]
    | some p =>
      obtain ⟨cid, obj⟩ := p
      simp only [List.foldl_cons, dirStep, hf, newDirKeys, ih, dictKeys_dictInsert]
      by_cases hk : cid.getD f.1 ∈ dictKeys d
      · simp [hk]
      · simp only [hk, if_neg, ite_false]
        rw [List.append_assoc]
        simp

theorem nodup_append_newDirKeys {α : Type u} (fs : List (DirFile α)) (ks : List String)
    (hnd : ks.Nodup) : (ks ++ newDirKeys ks fs).Nodup := by
  induction fs generalizing ks with
  | nil => simpa [newDirKeys]
  | cons f rest ih =>
    cases hf : f.2 with
    | none => simp only [newDirKeys, hf]; exact ih ks hnd
    | some p =>
      obtain ⟨cid, obj⟩ := p
      simp only [newDirKeys, hf]
      by_cases hk : cid.getD f.1 ∈ ks
      · simp only [hk, ite_true]; exact ih ks hnd
      · simp only [hk, ite_false]
        have : (ks ++ cid.getD f.1 :: newDirKeys (ks ++ [cid.getD f.1]) rest) =
            ((ks ++ [cid.getD f.1]) ++ newDirKeys (ks ++ [cid.getD f.1]) rest) := by
          simp
        rw [this]
        apply ih
        simp [List.nodup_append, hnd, hk]

theorem newDirKeys_eq_nil {α : Type u} (fs : List (DirFile α)) (ks : List String)
    (h : ∀ f ∈ fs, ∀ cid obj, f.2 = some (cid, obj) → cid.getD f.1 ∈ ks) :
    newDirKeys ks fs = ([] : List String) := by
  induction fs with
  | nil => rfl
  | cons f rest ih =>
    cases hf : f.2 with
    | none =>
      simp only [newDirKeys, hf]
      exact ih (fun g hg => h g (List.mem_cons_of_mem f hg))
    | some p =>
      obtain ⟨cid, obj⟩ := p
      have hk : cid.getD f.1 ∈ ks := h f (List.mem_cons_self f rest) cid obj hf
      simp only [newDirKeys, hf, hk, ite_true]
      exact ih (fun g hg => h g (List.mem_cons_of_mem f hg))

theorem assignedVal_ne_none_of_mem {α : Type u} (fs : List (DirFile α)) (f : DirFile α)
    (cid : Option String) (obj : α) (hf : f ∈ fs) (h2 : f.2 = some (cid, obj)) :
    assignedVal fs (cid.getD f.1) ≠ none := by
  induction fs with
  | nil => cases hf
  | cons g rest ih =>
    rcases List.mem_cons.mp hf with hg | hg
    · subst hg
      simp only [assignedVal]
      cases ha : assignedVal rest (cid.getD f.1) with
      | some v => simp
      | none => simp [h2]
    · have := ih hg
      simp only [assignedVal]
      cases ha : assignedVal rest (cid.getD f.1) with
      | some v => simp
      | none => exact absurd ha this

theorem loadDir_idem {α : Type u} (dirFiles : Option (List (DirFile α)))
    (d : List (String × α)) (hnd : (dictKeys d).Nodup) :
    loadDir dirFiles (loadDir dirFiles d) = loadDir dirFiles d := by
  cases dirFiles with
  | none => rfl
  | some fs =>
    simp only [loadDir]
    have hDnd : (dictKeys (fs.foldl dirStep d)).Nodup := by
      rw [dictKeys_foldl_dirStep]
      exact nodup_append_newDirKeys fs (dictKeys d) hnd
    have hassigned : ∀ f ∈ fs, ∀ cid obj, f.2 = some (cid, obj) →
        cid.getD f.1 ∈ dictKeys (fs.foldl dirStep d) := by
      intro f hf cid obj h2
      have h1 := assignedVal_ne_none_of_mem fs f cid obj hf h2
      cases ha : assignedVal fs (cid.getD f.1) with
      | none => exact absurd ha h1
      | some v =>
        apply mem_dictKeys_of_dictGet _ _ v
        rw [dictGet_foldl_dirStep, ha]
    have hkeys : dictKeys (fs.foldl dirStep (fs.foldl dirStep d)) =
        dictKeys (fs.foldl dirStep d) := by
      rw [dictKeys_foldl_dirStep (d := fs.foldl dirStep d),
        newDirKeys_eq_nil fs _ hassigned, List.append_nil]
    apply dict_ext _ _ hkeys (hkeys ▸ hDnd)
    intro k
    rw [dictGet_foldl_dirStep, dictGet_foldl_dirStep (d := d)]
    cases ha : assignedVal fs k with
    | some v => rfl
    | none => rfl

theorem dictGet_foldl_lineStep (lines : List (Option FieldCard))
    (acc : List (String × FieldCard) × List (String × List String)) (n : String)
    (hn : n ≠ "") :
    dictGet (lines.foldl lineStep acc).1 n =
      match lastCardNamed lines n with
      | some c => some c
      | none => dictGet acc.1 n := by
  induction lines generalizing acc with
  | nil => rfl
  | cons l rest ih =>
    rw [List.foldl_cons, ih]
    cases ha : lastCardNamed rest n with
    | some c => simp [lastCardNamed, ha]
    | none =>
      simp only [lastCardNamed, ha]
      cases l with
      | none => rfl
      | some card =>
        cases hc : card.canonical_name with
        | none => simp [lineStep, hc]
        | some name =>
          by_cases hname : name = ""
          · subst hname
            have h2 : ¬ ("" = n) := fun h => hn h.symm
            simp [lineStep, hc, h2]
          · simp only [lineStep, hc, if_neg hname]
            rw [dictGet_dictInsert]
            by_cases he : name = n
            · subst he; simp [hc]
            · have : ¬ card.canonical_name = some n := by
                rw [hc]; intro h; exact he (Option.some.inj h)
              simp [this, he]

theorem mem_multiGet_foldl_synStep (syns : List String) (bs : List (String × List String))
    (name s n : String) :
    n ∈ multiGet (syns.foldl (synStep name) bs) s ↔
      n ∈ multiGet bs s ∨ (n = name ∧ s ≠ "" ∧ ∃ syn ∈ syns, normSynStr syn = s) := by
  induction syns generalizing bs with
  | nil => simp
  | cons syn rest ih =>
    rw [List.foldl_cons, ih]
    by_cases ht : normSynStr syn = ""
    · have hstep : synStep name bs syn = bs := by simp [synStep, ht]
      rw [hstep]
      by_cases hs : s = ""
      · simp [hs]
      · have hns : ¬ normSynStr syn = s := fun h => hs (h.symm.trans ht)
        simp only [List.mem_cons]
        constructor
        · rintro (h | ⟨h1, h2, y, hy, h3⟩)
          · exact Or.inl h
          · exact Or.inr ⟨h1, h2, y, Or.inr hy, h3⟩
        · rintro (h | ⟨h1, h2, y, (rfl | hy), h3⟩)
          · exact Or.inl h
          · exact absurd h3 hns
          · exact Or.inr ⟨h1, h2, y, hy, h3⟩
    · have hstep : synStep name bs syn = multiAppend bs (normSynStr syn) name := by
        simp [synStep, ht]
      rw [hstep]
      have hmem : ∀ m, m ∈ multiGet (multiAppend bs (normSynStr syn) name) s ↔
          (m ∈ multiGet bs s ∨ (normSynStr syn = s ∧ m = name)) := by
        intro m
        rw [multiGet_multiAppend]
        by_cases he : normSynStr syn = s <;> simp [he]
      rw [hmem]
      by_cases he : normSynStr syn = s
      · have hs : s ≠ "" := fun h => ht (he.trans h)
        simp only [List.mem_cons]
        constructor
        · rintro ((h | ⟨_, rfl⟩) | ⟨h1, h2, y, hy, h3⟩)
          · exact Or.inl h
          · exact Or.inr ⟨rfl, hs, syn, Or.inl rfl, he⟩
          · exact Or.inr ⟨h1, h2, y, Or.inr hy, h3⟩
        · rintro (h | ⟨h1, h2, y, (rfl | hy), h3⟩)
          · exact Or.inl (Or.inl h)
          · exact Or.inl (Or.inr ⟨h3, h1⟩)
          · exact Or.inr ⟨h1, h2, y, hy, h3⟩
      · simp only [List.mem_cons]
        constructor
        · rintro ((h | ⟨h1, _⟩) | ⟨h1, h2, y, hy, h3⟩)
          · exact Or.inl h
          · exact absurd h1 he
          · exact Or.inr ⟨h1, h2, y, Or.inr hy, h3⟩
        · rintro (h | ⟨h1, h2, y, (rfl | hy), h3⟩)
          · exact Or.inl (Or.inl h)
          · exact absurd h3 he
          · exact Or.inr ⟨h1, h2, y, hy, h3⟩

theorem mem_multiGet_foldl_lineStep (lines : List (Option FieldCard))
    (acc : List (String × FieldCard) × List (String × List String)) (s n : String) :
    n ∈ multiGet (lines.foldl lineStep acc).2 s ↔
      n ∈ multiGet acc.2 s ∨ synContrib lines s n := by
  induction lines generalizing acc with
  | nil => simp [synContrib]
  | cons l rest ih =>
    rw [List.foldl_cons, ih]
    cases l with
    | none =>
      show _ ∈ multiGet acc.2 s ∨ _ ↔ _
      unfold synContrib
      simp only [List.mem_cons]
      constructor
      · rintro (h | ⟨c, hc, rest'⟩)
        · exact Or.inl h
        · exact Or.inr ⟨c, Or.inr hc, rest'⟩
      · rintro (h | ⟨c, (hc | hc), rest'⟩)
        · exact Or.inl h
        · exact absurd hc.symm (by simp)
        · exact Or.inr ⟨c, hc, rest'⟩
    | some card =>
      cases hc : card.canonical_name with
      | none =>
        have hstep : lineStep acc (some card) = acc := by simp [lineStep, hc]
        rw [hstep]
        unfold synContrib
        simp only [List.mem_cons]
        constructor
        · rintro (h | ⟨c, hmem, rest'⟩)
          · exact Or.inl h
          · exact Or.inr ⟨c, Or.inr hmem, rest'⟩
        · rintro (h | ⟨c, (heq | hmem), h1, rest'⟩)
          · exact Or.inl h
          · exact absurd h1 (by cases Option.some.inj heq; simp [hc])
          · exact Or.inr ⟨c, hmem, h1, rest'⟩
      | some name =>
        by_cases hname : name = ""
        · subst hname
          have hstep : lineStep acc (some card) = acc := by simp [lineStep, hc]
          rw [hstep]
          unfold synContrib
          simp only [List.mem_cons]
          constructor
          · rintro (h | ⟨c, hmem, rest'⟩)
            · exact Or.inl h
            · exact Or.inr ⟨c, Or.inr hmem, rest'⟩
          · rintro (h | ⟨c, (heq | hmem), h1, h2, rest'⟩)
            · exact Or.inl h
            · cases Option.some.inj heq
              rw [hc] at h1
              exact absurd (Option.some.inj h1).symm h2
            · exact Or.inr ⟨c, hmem, h1, h2, rest'⟩
        · have hstep : lineStep acc (some card) =
              (dictInsert acc.1 name card, card.synonyms.foldl (synStep name) acc.2) := by
            simp [lineStep, hc, hname]
          rw [hstep]
          show n ∈ multiGet (card.synonyms.foldl (synStep name) acc.2) s ∨ _ ↔ _
          rw [mem_multiGet_foldl_synStep]
          unfold synContrib
          simp only [List.mem_cons]
          constructor
          · rintro ((h | ⟨rfl, hs, y, hy, h3⟩) | ⟨c, hmem, rest'⟩)
            · exact Or.inl h
            · exact Or.inr ⟨card, Or.inl rfl, hc, hname, hs, y, hy, h3⟩
            · exact Or.inr ⟨c, Or.inr hmem, rest'⟩
          · rintro (h | ⟨c, (heq | hmem), h1, h2, h3, y, hy, h4⟩)
            · exact Or.inl (Or.inl h)
            · cases Option.some.inj heq
              rw [hc] at h1
              exact Or.inl (Or.inr ⟨(Option.some.inj h1).symm, h3, y, hy, h4⟩)
            · exact Or.inr ⟨c, hmem, h1, h2, h3, y, hy, h4⟩

theorem mem_foldl_insertHit (ns : List String) (acc : List String) (x : String) :
    x ∈ ns.foldl insertHit acc ↔ x ∈ acc ∨ x ∈ ns := by
  induction ns generalizing acc with
  | nil => simp
  | cons n rest ih =>
    rw [List.foldl_cons, ih]
    by_cases h : n ∈ acc
    · simp only [insertHit, if_pos h, List.mem_cons]
      constructor
      · rintro (ha | hr)
        · exact Or.inl ha
        · exact Or.inr (Or.inr hr)
      · rintro (ha | rfl | hr)
        · exact Or.inl ha
        · exact Or.inl h
        · exact Or.inr hr
    · simp only [insertHit, if_neg h, List.mem_append, List.mem_singleton, List.mem_cons]
      tauto

theorem nodup_foldl_insertHit (ns : List String) (acc : List String) (h : acc.Nodup) :
    (ns.foldl insertHit acc).Nodup := by
  induction ns generalizing acc with
  | nil => exact h
  | cons n rest ih =>
    rw [List.foldl_cons]
    by_cases hn : n ∈ acc
    · rw [insertHit, if_pos hn]; exact ih acc h
    · rw [insertHit, if_neg hn]
      exact ih _ (by simp [List.nodup_append, h, hn])

theorem mem_foldl_searchStep (st : RAGStore) (cues : List String) (acc : List String)
    (x : String) :
    x ∈ cues.foldl (searchStep st) acc ↔
      x ∈ acc ∨ ∃ c ∈ cues, ∃ ns,
        dictGet st.fields_by_synonym (normCueStr c) = some ns ∧ x ∈ ns := by
  induction cues generalizing acc with
  | nil => simp
  | cons c rest ih =>
    rw [List.foldl_cons, ih]
    cases hc : dictGet st.fields_by_synonym (normCueStr c) with
    | none =>
      rw [searchStep, hc]
      simp only [List.mem_cons]
      constructor
      · rintro (ha | ⟨c', hm, hr⟩)
        · exact Or.inl ha
        · exact Or.inr ⟨c', Or.inr hm, hr⟩
      · rintro (ha | ⟨c', (rfl | hm), ns, hns, hx⟩)
        · exact Or.inl ha
        · rw [hc] at hns; exact Option.noConfusion hns
        · exact Or.inr ⟨c', hm, ns, hns, hx⟩
    | some ns =>
      rw [searchStep, hc, mem_foldl_insertHit]
      simp only [List.mem_cons]
      constructor
      · rintro ((ha | hn) | ⟨c', hm, hr⟩)
        · exact Or.inl ha
        · exact Or.inr ⟨c, Or.inl rfl, ns, hc, hn⟩
        · exact Or.inr ⟨c', Or.inr hm, hr⟩
      · rintro (ha | ⟨c', (rfl | hm), ns', hns, hx⟩)
        · exact Or.inl (Or.inl ha)
        · rw [hc] at hns; exact Or.inl (Or.inr ((Option.some.inj hns) ▸ hx))
        · exact Or.inr ⟨c', hm, ns', hns, hx⟩

theorem nodup_foldl_searchStep (st : RAGStore) (cues : List String) (acc : List String)
    (h : acc.Nodup) : (cues.foldl (searchStep st) acc).Nodup := by
  induction cues generalizing acc with
  | nil => exact h
  | cons c rest ih =>
    rw [List.foldl_cons]
    refine ih _ ?_
    rw [searchStep]
    cases dictGet st.fields_by_synonym (normCueStr c) with
    | none => exact h
    | some ns => exact nodup_foldl_insertHit ns acc h

theorem dictInsert_eq_append_of_not_mem {α : Type u} (d : List (String × α)) (k : String)
    (v : α) (h : k ∉ dictKeys d) : dictInsert d k v = d ++ [(k, v)] := by
  induction d with
  | nil => rfl
  | cons p rest ih =>
    simp only [dictKeys, List.map_cons, List.mem_cons, not_or] at h
    have h1 : ¬ p.1 = k := fun hh => h.1 hh.symm
    simp [dictInsert, h1, ih h.2]

theorem foldl_dictInsert_fresh {α : Type u} (d acc : List (String × α))
    (hfresh : ∀ k ∈ dictKeys d, k ∉ dictKeys acc) (hnd : (dictKeys d).Nodup) :
    d.foldl (fun a kv => dictInsert a kv.1 kv.2) acc = acc ++ d := by
  induction d generalizing acc with
  | nil => simp
  | cons p rest ih =>
    rw [List.foldl_cons]
    have hp : p.1 ∉ dictKeys acc := hfresh p.1 (by simp [dictKeys])
    rw [dictInsert_eq_append_of_not_mem acc p.1 p.2 hp]
    have hnd2 : p.1 ∉ List.map Prod.fst rest ∧ (List.map Prod.fst rest).Nodup := by
      have h := hnd
      simp only [dictKeys, List.map_cons, List.nodup_cons] at h
      exact h
    have hnd' : (dictKeys rest).Nodup := hnd2.2
    have hp1 : p.1 ∉ dictKeys rest := hnd2.1
    rw [ih (acc ++ [(p.1, p.2)]) ?_ hnd']
    · simp
    · intro k hk
      simp only [dictKeys, List.map_append, List.mem_append] at hk ⊢
      rintro (hka | hkp)
      · exact hfresh k (by simp [dictKeys, hk]) (by simpa [dictKeys] using hka)
      · simp only [List.map_cons, List.map_nil, List.mem_singleton] at hkp
        exact hp1 (by simpa [dictKeys, hkp] using hk)

/-- Copying all items of a dict into a fresh empty dict reproduces it, provided
its keys are unique (they always are for a genuine Python dict). -/
theorem foldl_dictInsert_copy {α : Type u} (d : List (String × α))
    (hnd : (dictKeys d).Nodup) :
    d.foldl (fun a kv => dictInsert a kv.1 kv.2) ([] : List (String × α)) = d := by
  have := foldl_dictInsert_fresh d [] (by simp [dictKeys]) hnd
  simpa using this

theorem append_ite_nil {γ : Type u} (b : Prop) [Decidable b] (x y : List γ) :
    (if b then x else x ++ y) = x ++ (if b then [] else y) := by
  by_cases h : b <;> simp [h]

theorem ite_isEmpty_filter {γ : Type u} {δ : Type u} (l : List γ) (q : γ → Bool)
    (x : List δ) :
    (if l.isEmpty = true then ([] : List δ)
      else (if (l.filter q).isEmpty = true then [] else x)) =
      (if (l.filter q).isEmpty = true then [] else x) := by
  cases l <;> simp

theorem ite_isEmpty_filter_map {γ : Type u} {δ : Type u} (l : List γ) (q : γ → Bool)
    (f : γ → δ) :
    (if l.isEmpty = true then ([] : List δ) else (l.filter q).map f) =
      (l.filter q).map f := by
  cases l <;> simp

theorem ite_isEmpty_map {γ : Type u} {δ : Type u} (l : List γ) (f : γ → δ) :
    (if l.isEmpty = true then ([] : List δ) else l.map f) = l.map f := by
  cases l <;> simp

/-- Closed form of `to_prompt_chunks`: the five chunk groups concatenated in
their fixed order, the redundant truthiness guards on the abbreviation, range
and lexicon mappings eliminated. -/
theorem to_prompt_chunks_eq (p : Payload) :
    ContextAssembler.to_prompt_chunks p =
      (if p.field_cards.isEmpty then []
        else [Chunk.fieldCardsChunk (p.field_cards.map slimCard)]) ++
      (if (p.policies.filter (fun kv => polQual kv.1)).isEmpty then []
        else [Chunk.policiesChunk (p.policies.filter (fun kv => polQual kv.1))]) ++
      (p.abbr.filter (fun kv => hasSubstrS kv.1 "dermatology")).map
        (fun kv => Chunk.abbrChunk kv.2) ++
      (if (p.ranges.filter (fun kv => rngQual kv.1)).isEmpty then []
        else [Chunk.rangesChunk (p.ranges.filter (fun kv => rngQual kv.1))]) ++
      p.lexicon.map lexChunkOf := by
  obtain ⟨fc, pol, ab, rng, lex⟩ := p
  have hpol : (fun kv : String × Json =>
      hasSubstrS kv.1 "notation" || hasSubstrS kv.1 "units" || hasSubstrS kv.1 "date") =
      (fun kv : String × Json => polQual kv.1) := rfl
  have hrng : (fun kv : String × Json =>
      (["labs", "scorad", "anthro"] : List String).any (fun tag => hasSubstrS kv.1 tag)) =
      (fun kv : String × Json => rngQual kv.1) := rfl
  have hlex : (fun kv : String × LexSlice =>
      Chunk.lexiconChunk kv.1 (kv.2.entries.map (fun e => (e.canonical, e.variants)))) =
      lexChunkOf := rfl
  simp only [ContextAssembler.to_prompt_chunks, hpol, hrng, hlex, append_ite_nil,
    ite_isEmpty_filter, ite_isEmpty_filter_map, ite_isEmpty_map, List.nil_append]

theorem not_mem_seen_of_mem_dedupeAux (ts : List (List Char)) (seen : List (List Char))
    (t : List Char) (h : t ∈ dedupeAux seen ts) : t ∉ seen := by
  induction ts generalizing seen with
  | nil => simp [dedupeAux] at h
  | cons t' rest ih =>
    by_cases hm : t' ∈ seen
    · simp only [dedupeAux, if_pos hm] at h
      exact ih seen h
    · simp only [dedupeAux, if_neg hm] at h
      rcases List.mem_cons.mp h with rfl | h2
      · exact hm
      · intro hs
        exact ih (t' :: seen) h2 (List.mem_cons_of_mem t' hs)

theorem dedupeAux_nodup (ts : List (List Char)) (seen : List (List Char)) :
    (dedupeAux seen ts).Nodup := by
  induction ts generalizing seen with
  | nil => simp [dedupeAux]
  | cons t' rest ih =>
    by_cases hm : t' ∈ seen
    · simpa [dedupeAux, hm] using ih seen
    · simp only [dedupeAux, if_neg hm]
      refine List.nodup_cons.mpr ⟨?_, ih (t' :: seen)⟩
      intro hmem
      exact (not_mem_seen_of_mem_dedupeAux rest (t' :: seen) t' hmem)
        (List.mem_cons_self t' seen)

theorem foldl_insert_eq_append_dedupeAux (ts : List (List Char))
    (acc seen : List (List Char)) (h : ∀ x, x ∈ seen ↔ x ∈ acc) :
    ts.foldl (fun a t => if t ∈ a then a else a ++ [t]) acc = acc ++ dedupeAux seen ts := by
  induction ts generalizing acc seen with
  | nil => simp [dedupeAux]
  | cons t' rest ih =>
    rw [List.foldl_cons]
    by_cases hm : t' ∈ seen
    · have hma : t' ∈ acc := (h t').mp hm
      rw [if_pos hma]
      simp only [dedupeAux, if_pos hm]
      exact ih acc seen h
    · have hma : t' ∉ acc := fun hc => hm ((h t').mpr hc)
      rw [if_neg hma]
      simp only [dedupeAux, if_neg hm]
      rw [ih (acc ++ [t']) (t' :: seen) ?_]
      · simp
      · intro x
        simp only [List.mem_cons, List.mem_append, List.mem_singleton, h x]
        tauto

/-- The source's seen-set loop computes exactly the spec's first-occurrence
filter. -/
theorem dedupeAux_eq_firstOccurrences (ts : List (List Char)) :
    dedupeAux [] ts = firstOccurrences ts := by
  have := foldl_insert_eq_append_dedupeAux ts [] [] (by simp)
  simpa [firstOccurrences] using this.symm

/-- Closed form of `build_context`: each include flag copies one mapping, the
lexicon slice is added exactly when a treatment/follow-up field is targeted. -/
theorem build_context_eq (st : RAGStore) (target_fields : List String)
    (page_tokens : Option (List String)) (include_abbr include_policies include_ranges : Bool)
    (meds_lexicon_key : String) (meds_top_k : Int) :
    ContextAssembler.build_context st target_fields page_tokens include_abbr
        include_policies include_ranges meds_lexicon_key meds_top_k =
      { field_cards := st.get_field_cards target_fields
        policies := if include_policies then
            st.policy.foldl (fun d kv => dictInsert d kv.1 kv.2) [] else []
        abbr := if include_abbr then
            st.abbr.foldl (fun d kv => dictInsert d kv.1 kv.2) [] else []
        ranges := if include_ranges then
            st.ranges.foldl (fun d kv => dictInsert d kv.1 kv.2) [] else []
        lexicon := if target_fields.any isTreatmentField then
            [(meds_lexicon_key, st.slice_lexicon meds_lexicon_key page_tokens meds_top_k)]
          else [] } := by
  cases include_policies <;> cases include_abbr <;> cases include_ranges <;>
    cases htf : target_fields.any isTreatmentField <;>
    simp [ContextAssembler.build_context, htf, dictInsert]

/-- C3: for every base directory in which the field-card index file is absent,
`load()` signals a not-found condition (raises `FileNotFoundError`), and the
failing call leaves the Store exactly as it was before the call — no index is
cleared or repopulated, so no partial state ensues. -/
theorem C3_load_missing_file_fails_cleanly (st : RAGStore) (disk : DiskState)
    (h : disk.field_cards_file = none) :
    st.load disk = none ∧ st.loadState disk = st := by
  have hl : st.load disk = none := by
    unfold RAGStore.load
    rw [h]
  exact ⟨hl, by unfold RAGStore.loadState; rw [hl]; rfl⟩

theorem C3_load_missing_file_fails_cleanly_witness :
    (DiskState.field_cards_file { lexicon_files := some [] } = none) ∧
      (RAGStore.load sampleStore { lexicon_files := some [] } = none ∧
        RAGStore.loadState sampleStore { lexicon_files := some [] } = sampleStore) :=
  ⟨rfl, C3_load_missing_file_fails_cleanly sampleStore { lexicon_files := some [] } rfl⟩

/-- C4: `slice_lexicon(key, tokens, k)` with tokens matching zero entries of the
card equals `slice_lexicon(key, None, k)`; an absent key yields the empty result
whatever the other arguments; and the no-token slice is the first `k` entries of
the card in stored order (for the non-negative `k` Python's `[:k]` slicing makes
a prefix of). -/
theorem C4_slice_lexicon_fallback (st : RAGStore) (key : String) (toks : List String)
    (k : Int) :
    ((∀ card, dictGet st.lexicons key = some card → matchingEntries card toks = []) →
      st.slice_lexicon key (some toks) k = st.slice_lexicon key none k)
    ∧ (dictGet st.lexicons key = none →
        ∀ includeToks, st.slice_lexicon key includeToks k = LexSlice.emptyDict)
    ∧ (∀ card, dictGet st.lexicons key = some card → 0 ≤ k →
        st.slice_lexicon key none k =
          LexSlice.mkSlice card.card_id (card.entries.take k.toNat)) := by
  refine ⟨?_, ?_, ?_⟩
  · intro h
    unfold RAGStore.slice_lexicon
    cases hget : dictGet st.lexicons key with
    | none => rfl
    | some card =>
      by_cases ht : toks.isEmpty
      · simp [ht]
      · have hm := h card hget
        simp [ht, hm]
  · intro h includeToks
    unfold RAGStore.slice_lexicon
    rw [h]
  · intro card hget hk
    unfold RAGStore.slice_lexicon
    rw [hget]
    simp [pyTake, hk]

theorem C4_slice_lexicon_fallback_witness :
    (lexStore.slice_lexicon "lexicon/meds_observed:v1" (some ["nomatch"]) 10 =
      lexStore.slice_lexicon "lexicon/meds_observed:v1" none 10)
    ∧ (lexStore.slice_lexicon "missing_key" (some ["Tacroz"]) 10 = LexSlice.emptyDict)
    ∧ (lexStore.slice_lexicon "lexicon/meds_observed:v1" none 1 =
        LexSlice.mkSlice medsCard.card_id (medsCard.entries.take 1)) := by
  refine ⟨?_, ?_, ?_⟩
  · exact (C4_slice_lexicon_fallback lexStore "lexicon/meds_observed:v1" ["nomatch"] 10).1
      (by
        intro card hc
        have h0 : dictGet lexStore.lexicons "lexicon/meds_observed:v1" = some medsCard := rfl
        rw [h0] at hc
        cases Option.some.inj hc
        rfl)
  · exact (C4_slice_lexicon_fallback lexStore "missing_key" ["Tacroz"] 10).2.1 rfl (some ["Tacroz"])
  · exact (C4_slice_lexicon_fallback lexStore "lexicon/meds_observed:v1" ["Tacroz"] 1).2.2
      medsCard rfl (by decide)

/-- C7: `get_field_cards` distributes over concatenation of the name list (so
it preserves the caller's order and never raises), returns at most one card per
requested name, drops unknown names, maps each known name to its indexed card,
and contains exactly the cards of the requested names present in the index. -/
theorem C7_get_field_cards_order (st : RAGStore) (names1 names2 : List String)
    (n : String) (c : FieldCard) :
    st.get_field_cards (names1 ++ names2) =
      st.get_field_cards names1 ++ st.get_field_cards names2
    ∧ (st.get_field_cards names1).length ≤ names1.length
    ∧ (dictGet st.fields_by_name n = none → st.get_field_cards [n] = [])
    ∧ (∀ c', dictGet st.fields_by_name n = some c' → st.get_field_cards [n] = [c'])
    ∧ (c ∈ st.get_field_cards names1 ↔
        ∃ nm ∈ names1, dictGet st.fields_by_name nm = some c) := by
  refine ⟨?_, ?_, ?_, ?_, ?_⟩
  · unfold RAGStore.get_field_cards
    rw [List.filter_append, List.filterMap_append]
  · unfold RAGStore.get_field_cards
    exact le_trans (List.length_filterMap_le _ _) (List.length_filter_le _ _)
  · intro h
    unfold RAGStore.get_field_cards
    simp [h]
  · intro c' h
    unfold RAGStore.get_field_cards
    simp [h]
  · unfold RAGStore.get_field_cards
    constructor
    · intro h
      obtain ⟨nm, hmem, hsome⟩ := List.mem_filterMap.mp h
      exact ⟨nm, (List.mem_filter.mp hmem).1, hsome⟩
    · rintro ⟨nm, hmem, hsome⟩
      refine List.mem_filterMap.mpr ⟨nm, ?_, hsome⟩
      refine List.mem_filter.mpr ⟨hmem, ?_⟩
      rw [hsome]
      rfl

theorem C7_get_field_cards_order_witness :
    sampleStore.get_field_cards (["duration"] ++ ["unknown_field"]) =
      sampleStore.get_field_cards ["duration"] ++ sampleStore.get_field_cards ["unknown_field"]
    ∧ sampleStore.get_field_cards ["unknown_field"] = []
    ∧ sampleStore.get_field_cards ["duration"] = [durationCard] := by
  refine ⟨(C7_get_field_cards_order sampleStore ["duration"] ["unknown_field"]
    "unknown_field" durationCard).1, ?_, ?_⟩
  · exact (C7_get_field_cards_order sampleStore ["duration"] ["unknown_field"]
      "unknown_field" durationCard).2.2.1 rfl
  · exact (C7_get_field_cards_order sampleStore ["duration"] ["unknown_field"]
      "duration" durationCard).2.2.2.1 durationCard rfl

/-- C8: `search_fields_by_synonyms` returns a duplicate-free sequence whose
members are exactly the canonical names that the synonym index associates with
some cue after lowercasing and trimming it (`str(c).lower().strip()`); the
result order is left unspecified by the source (Python set iteration). -/
theorem C8_search_fields_by_synonyms_set (st : RAGStore) (cues : List String) (n : String) :
    (st.search_fields_by_synonyms cues).Nodup
    ∧ (n ∈ st.search_fields_by_synonyms cues ↔
        ∃ c ∈ cues, ∃ ns, dictGet st.fields_by_synonym (normCueStr c) = some ns ∧ n ∈ ns) := by
  constructor
  · exact nodup_foldl_searchStep st cues [] List.nodup_nil
  · have h := mem_foldl_searchStep st cues [] n
    simpa using h

/-- C5: `to_prompt_chunks` emits, in this fixed order: one reduced field-card
chunk iff a field card is present, one policy chunk of the keys containing
"notation"/"units"/"date" iff one qualifies, one chunk per abbreviation key
containing "dermatology", one merged ranges chunk of the keys containing
"labs"/"scorad"/"anthro" iff one qualifies, then the lexicon chunks; a payload
with one field card, no qualifying policy/abbreviation/range entries and no
lexicon yields exactly one chunk. -/
theorem C5_to_prompt_chunks_order (p : Payload) :
    (ContextAssembler.to_prompt_chunks p =
      (if p.field_cards.isEmpty then []
        else [Chunk.fieldCardsChunk (p.field_cards.map slimCard)]) ++
      (if (p.policies.filter (fun kv => polQual kv.1)).isEmpty then []
        else [Chunk.policiesChunk (p.policies.filter (fun kv => polQual kv.1))]) ++
      (p.abbr.filter (fun kv => hasSubstrS kv.1 "dermatology")).map
        (fun kv => Chunk.abbrChunk kv.2) ++
      (if (p.ranges.filter (fun kv => rngQual kv.1)).isEmpty then []
        else [Chunk.rangesChunk (p.ranges.filter (fun kv => rngQual kv.1))]) ++
      p.lexicon.map lexChunkOf)
    ∧ (p.field_cards.length = 1 →
        p.policies.filter (fun kv => polQual kv.1) = [] →
        p.abbr.filter (fun kv => hasSubstrS kv.1 "dermatology") = [] →
        p.ranges.filter (fun kv => rngQual kv.1) = [] →
        p.lexicon = [] →
        (ContextAssembler.to_prompt_chunks p).length = 1) := by
  refine ⟨to_prompt_chunks_eq p, ?_⟩
  intro h1 h2 h3 h4 h5
  rw [to_prompt_chunks_eq p, h2, h3, h4, h5]
  cases hfc : p.field_cards with
  | nil => rw [hfc] at h1; simp at h1
  | cons a t =>
    rw [hfc] at h1
    simp only [List.length_cons, Nat.add_left_eq_self] at h1  -- t.length = 0
    simp [List.length_eq_zero.mp (by omega : t.length = 0)]

theorem C5_to_prompt_chunks_order_witness :
    (ContextAssembler.to_prompt_chunks singleCardPayload).length = 1 :=
  (C5_to_prompt_chunks_order singleCardPayload).2 rfl rfl rfl rfl rfl

/-- C6: `build_context` puts a lexicon slice in the payload iff the target
fields meet the fixed treatment/follow-up set, and then the slice is exactly
`slice_lexicon(meds_lexicon_key, page_tokens, meds_top_k)`; each enabled
include flag copies the whole corresponding store mapping verbatim (stated for
duplicate-free key lists, which every Python dict has). -/
theorem C6_build_context_payload (st : RAGStore) (target_fields : List String)
    (page_tokens : Option (List String)) (ia ip ir : Bool) (key : String) (k : Int) :
    ((ContextAssembler.build_context st target_fields page_tokens ia ip ir key k).lexicon
        ≠ [] ↔ target_fields.any isTreatmentField = true)
    ∧ (target_fields.any isTreatmentField = true →
        (ContextAssembler.build_context st target_fields page_tokens ia ip ir key k).lexicon
          = [(key, st.slice_lexicon key page_tokens k)])
    ∧ (ip = true → (dictKeys st.policy).Nodup →
        (ContextAssembler.build_context st target_fields page_tokens ia ip ir key k).policies
          = st.policy)
    ∧ (ia = true → (dictKeys st.abbr).Nodup →
        (ContextAssembler.build_context st target_fields page_tokens ia ip ir key k).abbr
          = st.abbr)
    ∧ (ir = true → (dictKeys st.ranges).Nodup →
        (ContextAssembler.build_context st target_fields page_tokens ia ip ir key k).ranges
          = st.ranges) := by
  rw [build_context_eq]
  refine ⟨?_, ?_, ?_, ?_, ?_⟩
  · cases htf : target_fields.any isTreatmentField <;> simp [htf]
  · intro htf; simp [htf]
  · intro hip hnd; simp [hip, foldl_dictInsert_copy st.policy hnd]
  · intro hia hnd; simp [hia, foldl_dictInsert_copy st.abbr hnd]
  · intro hir hnd; simp [hir, foldl_dictInsert_copy st.ranges hnd]

theorem C6_build_context_payload_witness :
    ((ContextAssembler.build_context sampleStore ["treatment_history"] (some ["tacroz"])
        true true true "lexicon/meds_observed:v1" 12).lexicon
      = [("lexicon/meds_observed:v1",
          sampleStore.slice_lexicon "lexicon/meds_observed:v1" (some ["tacroz"]) 12)])
    ∧ ((ContextAssembler.build_context sampleStore ["treatment_history"] (some ["tacroz"])
        true true true "lexicon/meds_observed:v1" 12).policies = sampleStore.policy)
    ∧ ((ContextAssembler.build_context sampleStore ["duration"] none
        true true true "lexicon/meds_observed:v1" 12).lexicon ≠ [] ↔
        (["duration"] : List String).any isTreatmentField = true) := by
  refine ⟨?_, ?_, ?_⟩
  · exact (C6_build_context_payload sampleStore ["treatment_history"] (some ["tacroz"])
      true true true "lexicon/meds_observed:v1" 12).2.1 rfl
  · exact (C6_build_context_payload sampleStore ["treatment_history"] (some ["tacroz"])
      true true true "lexicon/meds_observed:v1" 12).2.2.1 rfl (by decide)
  · exact (C6_build_context_payload sampleStore ["duration"] none
      true true true "lexicon/meds_observed:v1" 12).1

/-- C9 counterexample: the output token `" abc"` of `normalize_tokens "- abc"`
(stripping the leading dash exposes a space that survives, because `strip()`
runs before `strip("-â€¢*")`) is not a fixed point — renormalizing the returned
sequence yields `["abc"]`, so normalization is not idempotent. -/
theorem C9_normalize_tokens_counterexample :
    normalize_tokens "- abc" = [" abc"]
    ∧ normalize_tokens (String.intercalate ", " (normalize_tokens "- abc")) = ["abc"]
    ∧ normalize_tokens (String.intercalate ", " (normalize_tokens "- abc"))
        ≠ normalize_tokens "- abc" := by
  refine ⟨by decide, by decide, by decide⟩

/-- C9 amended: `normalize_tokens` is duplicate-free and equals the
first-occurrence filter of its raw token stream (duplicates collapse to the
first occurrence, preserving first-seen order); the documented example
normalizes as stated and that output is itself a fixed point of
renormalization; full idempotence fails only on tokens where stripping
leading/trailing mark characters exposes whitespace (see the counterexample). -/
theorem C9_normalize_tokens_dedup (raw : String) :
    (normalize_tokens raw).Nodup
    ∧ normalize_tokens raw =
        (firstOccurrences (rawToks raw.data)).map (fun cs => String.mk cs)
    ∧ normalize_tokens "Symptoms, Duration, Tacroz 0.1% oint bd, Xyzal tab" =
        ["symptoms", "duration", "tacroz 0.1% oint bd", "xyzal tab"]
    ∧ normalize_tokens (String.intercalate ", "
        ["symptoms", "duration", "tacroz 0.1% oint bd", "xyzal tab"]) =
        ["symptoms", "duration", "tacroz 0.1% oint bd", "xyzal tab"] := by
  refine ⟨?_, ?_, by decide, by decide⟩
  · unfold normalize_tokens
    refine List.Nodup.map ?_ (dedupeAux_nodup _ _)
    intro a b hab
    injection hab
  · unfold normalize_tokens
    rw [dedupeAux_eq_firstOccurrences]

/-- C10: the lexicon chunks of `to_prompt_chunks` are one per lexicon key of
the payload, kept even for keys mapping to an empty slice (they form a suffix
of the chunk list); in particular `build_context` with a treatment/follow-up
target but an absent medication lexicon card yields a trailing lexicon chunk
with zero entries. -/
theorem C10_empty_lexicon_chunk (p : Payload) (st : RAGStore) (target_fields : List String)
    (page_tokens : Option (List String)) (ia ip ir : Bool) (key : String) (k : Int) :
    List.IsSuffix (p.lexicon.map lexChunkOf) (ContextAssembler.to_prompt_chunks p)
    ∧ (target_fields.any isTreatmentField = true →
        dictGet st.lexicons key = none →
        (ContextAssembler.to_prompt_chunks
            (ContextAssembler.build_context st target_fields page_tokens ia ip ir key k)).getLast?
          = some (Chunk.lexiconChunk key [])) := by
  constructor
  · rw [to_prompt_chunks_eq p]
    exact List.suffix_append _ _
  · intro htf hnone
    rw [build_context_eq]
    rw [htf]
    have hslice : st.slice_lexicon key page_tokens k = LexSlice.emptyDict := by
      unfold RAGStore.slice_lexicon
      rw [hnone]
    rw [to_prompt_chunks_eq]
    simp only [hslice, eq_self_iff_true, if_true]
    exact List.getLast?_concat _

theorem C10_empty_lexicon_chunk_witness :
    (ContextAssembler.to_prompt_chunks
        (ContextAssembler.build_context sampleStore ["treatment_history"] none
          true true true "lexicon/meds_observed:v1" 12)).getLast?
      = some (Chunk.lexiconChunk "lexicon/meds_observed:v1" []) :=
  (C10_empty_lexicon_chunk singleCardPayload sampleStore ["treatment_history"] none
    true true true "lexicon/meds_observed:v1" 12).2 rfl rfl

/-- C1 counterexample: a store previously loaded from `staleDisk1` (whose policy
directory holds one file) and then re-loaded from `staleDisk2` (whose policy
directory exists but is empty) retains the policy entry of the first load,
while loading a fresh store from `staleDisk2` yields an empty policy index — so
`load()` does not clear and repopulate every index, and an entry from before
the call is retained. -/
theorem C1_load_counterexample :
    RAGStore.load emptyRAGStore staleDisk1 = some stalePolicyStore
    ∧ RAGStore.load stalePolicyStore staleDisk2 = some stalePolicyStore
    ∧ RAGStore.load emptyRAGStore staleDisk2 = some emptyRAGStore
    ∧ stalePolicyStore.policy ≠ emptyRAGStore.policy := by
  refine ⟨rfl, rfl, rfl, ?_⟩
  show ("stale_policy", Json.null) :: [] ≠ []
  exact List.cons_ne_nil _ _

/-- C1 amended: `load()` rebuilds the name and synonym indices from the current
disk contents alone (they equal those of a fresh store loaded from the same
disk), the four directory indices are merged key by key into the prior state,
and re-invoking `load()` on unchanged disk contents is idempotent with respect
to final state. -/
theorem C1_load_rebuild (st st' st0 : RAGStore) (disk : DiskState)
    (hgood : goodKeys st)
    (h1 : st.load disk = some st') (h0 : RAGStore.load emptyRAGStore disk = some st0) :
    st'.fields_by_name = st0.fields_by_name
    ∧ st'.fields_by_synonym = st0.fields_by_synonym
    ∧ st'.load disk = some st' := by
  cases hfc : disk.field_cards_file with
  | none =>
    simp only [RAGStore.load, hfc] at h1
    exact Option.noConfusion h1
  | some lines =>
    simp only [RAGStore.load, hfc] at h1 h0
    have e1 := Option.some.inj h1
    have e0 := Option.some.inj h0
    subst e1
    subst e0
    refine ⟨rfl, rfl, ?_⟩
    simp only [RAGStore.load, hfc]
    rw [loadDir_idem disk.policy_files st.policy hgood.1,
      loadDir_idem disk.abbr_files st.abbr hgood.2.1,
      loadDir_idem disk.range_files st.ranges hgood.2.2.1,
      loadDir_idem disk.lexicon_files st.lexicons hgood.2.2.2]

theorem C1_load_rebuild_witness :
    stalePolicyStore.fields_by_name = stalePolicyStore.fields_by_name
    ∧ stalePolicyStore.fields_by_synonym = stalePolicyStore.fields_by_synonym
    ∧ RAGStore.load stalePolicyStore staleDisk1 = some stalePolicyStore :=
  C1_load_rebuild emptyRAGStore stalePolicyStore stalePolicyStore staleDisk1
    ⟨List.nodup_nil, List.nodup_nil, List.nodup_nil, List.nodup_nil⟩ rfl rfl

/-- C2 counterexample: with two lines sharing the canonical name `a`, only the
first listing the synonym `s`, the name index ends at the second card (which
lists no synonyms) while the synonym index still maps `s` to `a` — a synonym
maps to a canonical name whose final card does not list it, so the synonym
index is not the union over the cards present in the name index. -/
theorem C2_synonym_counterexample :
    dictGet (loadFieldCards dupLines).1 "a" = some dupCardB
    ∧ dupCardB.synonyms = []
    ∧ multiGet (loadFieldCards dupLines).2 "s" = ["a"] :=
  ⟨rfl, rfl, rfl⟩

/-- C2 amended: after a load, the synonym index holds a name under a key
exactly when SOME parsed line (not necessarily the line surviving in the name
index) carries that canonical name together with a synonym normalizing to the
key; the name index itself maps each canonical name to its last parsed card
(later duplicate lines silently overwrite earlier ones there). -/
theorem C2_synonym_index_aggregates (lines : List (Option FieldCard)) (s n : String)
    (hn : n ≠ "") :
    (n ∈ multiGet (loadFieldCards lines).2 s ↔ synContrib lines s n)
    ∧ dictGet (loadFieldCards lines).1 n = lastCardNamed lines n := by
  constructor
  · have h := mem_multiGet_foldl_lineStep lines ([], []) s n
    unfold loadFieldCards
    rw [h]
    simp [multiGet, dictGet]
  · have h := dictGet_foldl_lineStep lines ([], []) n hn
    unfold loadFieldCards
    rw [h]
    cases lastCardNamed lines n <;> rfl

theorem C2_synonym_index_aggregates_witness :
    (("a" ∈ multiGet (loadFieldCards dupLines).2 "s") ↔ synContrib dupLines "s" "a")
    ∧ dictGet (loadFieldCards dupLines).1 "a" = lastCardNamed dupLines "a" :=
  C2_synonym_index_aggregates dupLines "s" "a" (by decide)
